import Mathlib

/-!
A shallow embedding of `rust-utf7-imap` (`src/lib.rs`), a codec between Unicode
text and the modified UTF-7 encoding of IMAP mailbox names (RFC 3501 §5.1.3).

Strings are modelled as `List Char` (Unicode scalar values).  The Rust source
scans UTF-8 bytes, but its only byte predicate (`is_ascii_custom`, true on
`0x20..=0x7f`) is false on every byte of a multi-byte UTF-8 character and on
every byte of a character below `0x20`, so scan boundaries always fall on
character boundaries and the byte-level scans are equivalent to the character
level scans used here.

The source's dependencies are modelled from their documented behaviour:
* `base64` crate (`base64::encode` / `base64::decode`, standard alphabet with
  padding): `b64Encode`, `base64Decode`.  A decode `Err` makes the source
  panic through `.unwrap()`; panics are modelled as `none`.
* `encoding_rs` (`UTF_16BE.decode`): WHATWG decoding which never fails;
  malformed sequences become U+FFFD, and the 3-byte prefixes FE FF / FF FE /
  EF BB BF are BOM-sniffed, switching the decoder to UTF-16BE / UTF-16LE /
  UTF-8 respectively and removing the BOM: `utf16beDecodeBytes`.
* `regex` (`Regex::new(r"&([^-]*)-")` with `replace_all`): successive
  non-overlapping leftmost matches; every match starts at a `&` and extends to
  the first `-` after it: `decodeFuel` / `findSpansFuel`.
-/

namespace Utf7Imap

/-- Standard base64 alphabet table of the `base64` crate (index 0..63). -/
def tab (n : Nat) : Char :=
  if n < 26 then Char.ofNat (65 + n)
  else if n < 52 then Char.ofNat (97 + (n - 26))
  else if n < 62 then Char.ofNat (48 + (n - 52))
  else if n = 62 then '+'
  else '/'

/-- Inverse of the standard base64 alphabet table (0 on non-alphabet chars). -/
def untab (c : Char) : Nat :=
  if 65 ≤ c.toNat ∧ c.toNat ≤ 90 then c.toNat - 65
  else if 97 ≤ c.toNat ∧ c.toNat ≤ 122 then c.toNat - 97 + 26
  else if 48 ≤ c.toNat ∧ c.toNat ≤ 57 then c.toNat - 48 + 52
  else if c = '+' then 62
  else if c = '/' then 63
  else 0

/-- Membership in the standard base64 alphabet. -/
def isB64Char (c : Char) : Bool :=
  decide ((65 ≤ c.toNat ∧ c.toNat ≤ 90) ∨ (97 ≤ c.toNat ∧ c.toNat ≤ 122) ∨
    (48 ≤ c.toNat ∧ c.toNat ≤ 57) ∨ c = '+' ∨ c = '/')

/-- `base64::encode` with the standard alphabet and `=` padding. -/
def b64Encode : List Nat → List Char
  | [] => []
  | [b1] => [tab (b1 / 4), tab (b1 % 4 * 16), '=', '=']
  | [b1, b2] => [tab (b1 / 4), tab (b1 % 4 * 16 + b2 / 16), tab (b2 % 16 * 4), '=']
  | b1 :: b2 :: b3 :: rest =>
    tab (b1 / 4) :: tab (b1 % 4 * 16 + b2 / 16) :: tab (b2 % 16 * 4 + b3 / 64) ::
      tab (b3 % 64) :: b64Encode rest

/-- Remove all trailing `=` characters (Rust `str::trim_end_matches('=')`). -/
def stripEq (l : List Char) : List Char :=
  (l.reverse.dropWhile (fun c => c == '=')).reverse

/-- Decode base64 data (padding already stripped) in groups of four sextet
characters; a final group of a single character is invalid. -/
def b64DecodeGroups : List Char → Option (List Nat)
  | [] => some []
  | [_] => none
  | [c1, c2] => some [untab c1 * 4 + untab c2 / 16]
  | [c1, c2, c3] =>
    some [untab c1 * 4 + untab c2 / 16, untab c2 % 16 * 16 + untab c3 / 4]
  | c1 :: c2 :: c3 :: c4 :: rest =>
    (b64DecodeGroups rest).map
      (fun bs => (untab c1 * 4 + untab c2 / 16) :: (untab c2 % 16 * 16 + untab c3 / 4) ::
        (untab c3 % 4 * 64 + untab c4) :: bs)

/-- `base64::decode`: strip trailing padding (at most two `=`), require every
remaining character to be in the alphabet, then decode sextet groups.
`none` models the `Err` case (which the source turns into a panic). -/
def base64Decode (s : List Char) : Option (List Nat) :=
  let data := stripEq s
  if s.length - data.length > 2 then none
  else if data.any (fun c => !isB64Char c) then none
  else b64DecodeGroups data

/-- `str::encode_utf16`: UTF-16 code units of a string, with surrogate pairs
for scalar values above the Basic Multilingual Plane. -/
def utf16Encode : List Char → List Nat
  | [] => []
  | c :: rest =>
    if c.toNat < 0x10000 then c.toNat :: utf16Encode rest
    else (0xD800 + (c.toNat - 0x10000) / 0x400) ::
      (0xDC00 + (c.toNat - 0x10000) % 0x400) :: utf16Encode rest

/-- Big-endian byte serialization of 16-bit code units (`u16::to_be_bytes`). -/
def bytesOfUnitsBE : List Nat → List Nat
  | [] => []
  | u :: rest => u / 256 :: u % 256 :: bytesOfUnitsBE rest

/-- Group bytes into big-endian 16-bit units; the flag records a trailing
odd byte. -/
def unitsOfBytesBE : List Nat → List Nat × Bool
  | [] => ([], false)
  | [_] => ([], true)
  | b1 :: b2 :: rest =>
    let p := unitsOfBytesBE rest
    ((b1 * 256 + b2) :: p.1, p.2)

/-- Group bytes into little-endian 16-bit units; the flag records a trailing
odd byte. -/
def unitsOfBytesLE : List Nat → List Nat × Bool
  | [] => ([], false)
  | [_] => ([], true)
  | b1 :: b2 :: rest =>
    let p := unitsOfBytesLE rest
    ((b1 + b2 * 256) :: p.1, p.2)

def isHighSurrogate (u : Nat) : Bool := decide (0xD800 ≤ u ∧ u ≤ 0xDBFF)

def isLowSurrogate (u : Nat) : Bool := decide (0xDC00 ≤ u ∧ u ≤ 0xDFFF)

/-- WHATWG UTF-16 code-unit sequence decoding with U+FFFD replacement for
unpaired surrogates (an unpaired high surrogate is replaced and the following
unit is reprocessed). -/
def utf16DecodeUnits : List Nat → List Char
  | [] => []
  | [u] =>
    if isHighSurrogate u || isLowSurrogate u then [Char.ofNat 0xFFFD] else [Char.ofNat u]
  | u :: v :: rest =>
    if isHighSurrogate u then
      if isLowSurrogate v then
        Char.ofNat (0x10000 + (u - 0xD800) * 0x400 + (v - 0xDC00)) :: utf16DecodeUnits rest
      else Char.ofNat 0xFFFD :: utf16DecodeUnits (v :: rest)
    else if isLowSurrogate u then Char.ofNat 0xFFFD :: utf16DecodeUnits (v :: rest)
    else Char.ofNat u :: utf16DecodeUnits (v :: rest)

/-- UTF-16BE decoding of a byte buffer without BOM handling; a trailing odd
byte becomes U+FFFD. -/
def utf16beNoBom (bs : List Nat) : List Char :=
  let p := unitsOfBytesBE bs
  utf16DecodeUnits p.1 ++ (if p.2 then [Char.ofNat 0xFFFD] else [])

/-- UTF-16LE decoding of a byte buffer without BOM handling; a trailing odd
byte becomes U+FFFD. -/
def utf16leNoBom (bs : List Nat) : List Char :=
  let p := unitsOfBytesLE bs
  utf16DecodeUnits p.1 ++ (if p.2 then [Char.ofNat 0xFFFD] else [])

/-- Lowest admissible second byte of a UTF-8 sequence headed by `b`. -/
def utf8ContLow (b : Nat) : Nat :=
  if b = 0xE0 then 0xA0 else if b = 0xF0 then 0x90 else 0x80

/-- Highest admissible second byte of a UTF-8 sequence headed by `b`. -/
def utf8ContHigh (b : Nat) : Nat :=
  if b = 0xED then 0x9F else if b = 0xF4 then 0x8F else 0xBF

/-- WHATWG UTF-8 decoding with U+FFFD replacement (maximal subparts: an
invalid byte inside a sequence is reprocessed after emitting U+FFFD).
Each step consumes at least one byte, so `length` fuel suffices. -/
def utf8DecodeFuel : Nat → List Nat → List Char
  | _, [] => []
  | 0, _ => []
  | f + 1, b :: rest =>
    if b < 0x80 then Char.ofNat b :: utf8DecodeFuel f rest
    else if 0xC2 ≤ b ∧ b ≤ 0xDF then
      match rest with
      | [] => [Char.ofNat 0xFFFD]
      | c1 :: rest2 =>
        if 0x80 ≤ c1 ∧ c1 ≤ 0xBF then
          Char.ofNat ((b - 0xC0) * 64 + (c1 - 0x80)) :: utf8DecodeFuel f rest2
        else Char.ofNat 0xFFFD :: utf8DecodeFuel f (c1 :: rest2)
    else if 0xE0 ≤ b ∧ b ≤ 0xEF then
      match rest with
      | [] => [Char.ofNat 0xFFFD]
      | c1 :: rest2 =>
        if utf8ContLow b ≤ c1 ∧ c1 ≤ utf8ContHigh b then
          match rest2 with
          | [] => [Char.ofNat 0xFFFD]
          | c2 :: rest3 =>
            if 0x80 ≤ c2 ∧ c2 ≤ 0xBF then
              Char.ofNat ((b - 0xE0) * 4096 + (c1 - 0x80) * 64 + (c2 - 0x80)) ::
                utf8DecodeFuel f rest3
            else Char.ofNat 0xFFFD :: utf8DecodeFuel f (c2 :: rest3)
        else Char.ofNat 0xFFFD :: utf8DecodeFuel f (c1 :: rest2)
    else if 0xF0 ≤ b ∧ b ≤ 0xF4 then
      match rest with
      | [] => [Char.ofNat 0xFFFD]
      | c1 :: rest2 =>
        if utf8ContLow b ≤ c1 ∧ c1 ≤ utf8ContHigh b then
          match rest2 with
          | [] => [Char.ofNat 0xFFFD]
          | c2 :: rest3 =>
            if 0x80 ≤ c2 ∧ c2 ≤ 0xBF then
              match rest3 with
              | [] => [Char.ofNat 0xFFFD]
              | c3 :: rest4 =>
                if 0x80 ≤ c3 ∧ c3 ≤ 0xBF then
                  Char.ofNat ((b - 0xF0) * 0x40000 + (c1 - 0x80) * 4096 +
                    (c2 - 0x80) * 64 + (c3 - 0x80)) :: utf8DecodeFuel f rest4
                else Char.ofNat 0xFFFD :: utf8DecodeFuel f (c3 :: rest4)
            else Char.ofNat 0xFFFD :: utf8DecodeFuel f (c2 :: rest3)
        else Char.ofNat 0xFFFD :: utf8DecodeFuel f (c1 :: rest2)
    else Char.ofNat 0xFFFD :: utf8DecodeFuel f rest

/-- WHATWG UTF-8 decoding of a whole byte buffer. -/
def utf8Decode (bs : List Nat) : List Char := utf8DecodeFuel bs.length bs

/-- `encoding_rs`: `UTF_16BE.decode(bytes)`.  This entry point performs BOM
sniffing: a leading FE FF is consumed as a UTF-16BE BOM, a leading FF FE
switches to UTF-16LE, a leading EF BB BF switches to UTF-8; otherwise the
buffer is decoded as UTF-16BE.  It never fails (the `had_errors` flag is
ignored by the source). -/
def utf16beDecodeBytes (bs : List Nat) : List Char :=
  match bs with
  | 0xFE :: 0xFF :: rest => utf16beNoBom rest
  | 0xFF :: 0xFE :: rest => utf16leNoBom rest
  | 0xEF :: 0xBB :: 0xBF :: rest => utf8Decode rest
  | _ => utf16beNoBom bs

/-- `fn is_ascii_custom(c: u8) -> bool { (0x20..=0x7f).contains(&c) }`
(character-level; see the header comment for the byte/character equivalence). -/
def is_ascii_custom (c : Char) : Bool :=
  decide (0x20 ≤ c.toNat) && decide (c.toNat ≤ 0x7f)

/-- `fn get_ascii`: longest prefix of `is_ascii_custom` characters. -/
def get_ascii (s : List Char) : List Char := s.takeWhile is_ascii_custom

/-- `fn remove_ascii`: remainder after the longest `is_ascii_custom` prefix. -/
def remove_ascii (s : List Char) : List Char := s.dropWhile is_ascii_custom

/-- `fn get_nonascii`: longest prefix of non-`is_ascii_custom` characters. -/
def get_nonascii (s : List Char) : List Char :=
  s.takeWhile (fun c => !is_ascii_custom c)

/-- `fn remove_nonascii`: remainder after the longest non-`is_ascii_custom`
prefix. -/
def remove_nonascii (s : List Char) : List Char :=
  s.dropWhile (fun c => !is_ascii_custom c)

/-- `fn encode_modified_utf7`: UTF-16BE bytes, base64, strip `=` padding,
replace `/` by `,`, and frame with `&`…`-`. -/
def encode_modified_utf7 (text : List Char) : List Char :=
  let input := bytesOfUnitsBE (utf16Encode text)
  let b64 := stripEq (b64Encode input)
  '&' :: b64.map (fun c => if c = '/' then ',' else c) ++ ['-']

/-- `text.replace('&', "&-")` at the start of `encode_utf7_imap`. -/
def replaceAmp : List Char → List Char
  | [] => []
  | c :: rest => if c = '&' then '&' :: '-' :: replaceAmp rest else c :: replaceAmp rest

/-- The `while` loop of `fn encode_utf7_imap`, with explicit fuel (each
iteration consumes at least one character, so `text.length` fuel suffices;
the fuel-0 fallback on a nonempty list is unreachable from `encodeLoop`). -/
def encodeLoopFuel : Nat → List Char → List Char
  | _, [] => []
  | 0, _ :: _ => []
  | f + 1, text =>
    let a := get_ascii text
    let r := remove_ascii text
    if r.isEmpty then a
    else a ++ encode_modified_utf7 (get_nonascii r) ++ encodeLoopFuel f (remove_nonascii r)

/-- The `while` loop of `fn encode_utf7_imap`. -/
def encodeLoop (l : List Char) : List Char := encodeLoopFuel l.length l

/-- `pub fn encode_utf7_imap(text: String) -> String`. -/
def encode_utf7_imap (text : String) : String :=
  ⟨encodeLoop (replaceAmp text.data)⟩

/-- `fn decode_utf7_part`: unframe a matched `&`…`-` span, restore `/` for
`,`, re-pad to a multiple of four, base64-decode (a failure panics in the
source, modelled as `none`) and decode the bytes as UTF-16BE. -/
def decode_utf7_part (text : List Char) : Option (List Char) :=
  if text = ['&', '-'] then some ['&']
  else
    let text_mb64 := (text.drop 1).dropLast
    let text_b64 := text_mb64.map (fun c => if c = ',' then '/' else c)
    let padded := text_b64 ++ List.replicate ((4 - text_b64.length % 4) % 4) '='
    (base64Decode padded).map utf16beDecodeBytes

/-- `fn expand`: replacement for one regex match (`whole` is capture 0, the
whole match; `payload` is capture 1).  An empty payload produces a literal
`&`; otherwise the span is decoded. -/
def expand (whole payload : List Char) : Option (List Char) :=
  if payload.isEmpty then some ['&'] else decode_utf7_part whole

/-- Split a character list at its first `-`, returning the part before it and
the part after it.  This is how far a leftmost match of `&([^-]*)-` starting
at a preceding `&` extends: the greedy `[^-]*` stops exactly at the first `-`,
and if there is no `-` there is no match. -/
def splitAtMinus : List Char → Option (List Char × List Char)
  | [] => none
  | c :: rest =>
    if c = '-' then some ([], rest)
    else (splitAtMinus rest).map (fun pr => (c :: pr.1, pr.2))

/-- `Regex::new(r"&([^-]*)-").replace_all(text, expand)`: scan left to right;
at a `&` with a later `-`, the leftmost match spans up to the first `-` and is
replaced by `expand`; all other text is copied verbatim.  When no `-` remains
after a `&`, no further match exists and the remainder is copied verbatim.
Fuel as in `encodeLoopFuel` (`none` models a panic inside `expand`). -/
def decodeFuel : Nat → List Char → Option (List Char)
  | _, [] => some []
  | 0, l => some l
  | f + 1, c :: rest =>
    if c = '&' then
      match splitAtMinus rest with
      | none => some (c :: rest)
      | some (payload, rest2) =>
        match expand ('&' :: payload ++ ['-']) payload with
        | none => none
        | some d => (decodeFuel f rest2).map (fun t => d ++ t)
    else (decodeFuel f rest).map (fun d => c :: d)

/-- The full regex scan of `fn decode_utf7_imap` on a character list. -/
def decodeList (l : List Char) : Option (List Char) := decodeFuel l.length l

/-- `pub fn decode_utf7_imap(text: String) -> String`; `none` models a panic
(`base64::decode(..).unwrap()` on malformed payloads). -/
def decode_utf7_imap (text : String) : Option String :=
  (decodeList text.data).map (fun l => ⟨l⟩)

/-- The successive non-overlapping leftmost matches (capture 0) produced by
`Regex::new(r"&([^-]*)-")` on the input: the spans `replace_all` recognizes
and hands to `expand`. -/
def findSpansFuel : Nat → List Char → List (List Char)
  | _, [] => []
  | 0, _ => []
  | f + 1, c :: rest =>
    if c = '&' then
      match splitAtMinus rest with
      | none => []
      | some (payload, rest2) => ('&' :: payload ++ ['-']) :: findSpansFuel f rest2
    else findSpansFuel f rest

/-- The spans recognized as shift sequences by the decode scan. -/
def findSpans (l : List Char) : List (List Char) := findSpansFuel l.length l

lemma splitAtMinus_none {l : List Char} (h : '-' ∉ l) : splitAtMinus l = none := by
  induction l with
  | nil => rfl
  | cons c rest ih =>
    have hc : c ≠ '-' := fun hc => h (hc ▸ List.mem_cons_self c rest)
    have hr : '-' ∉ rest := fun hm => h (List.mem_cons_of_mem c hm)
    simp [splitAtMinus, hc, ih hr]

lemma splitAtMinus_append (p r : List Char) (hp : '-' ∉ p) :
    splitAtMinus (p ++ '-' :: r) = some (p, r) := by
  induction p with
  | nil => simp [splitAtMinus]
  | cons c cs ih =>
    have hc : c ≠ '-' := fun hc => hp (hc ▸ List.mem_cons_self c cs)
    have hcs : '-' ∉ cs := fun hm => hp (List.mem_cons_of_mem c hm)
    simp [splitAtMinus, hc, ih hcs]

lemma splitAtMinus_eq {l p r : List Char} (h : splitAtMinus l = some (p, r)) :
    l = p ++ '-' :: r ∧ '-' ∉ p := by
  induction l generalizing p r with
  | nil => simp [splitAtMinus] at h
  | cons c rest ih =>
    rw [splitAtMinus] at h
    by_cases hc : c = '-'
    · rw [if_pos hc] at h
      have h2 := Option.some.inj h
      have hp1 : p = [] := (congrArg Prod.fst h2).symm
      have hr1 : r = rest := (congrArg Prod.snd h2).symm
      subst hp1; subst hr1; subst hc
      exact ⟨rfl, by simp⟩
    · rw [if_neg hc] at h
      cases hsp : splitAtMinus rest with
      | none => rw [hsp] at h; simp at h
      | some pr =>
        rw [hsp] at h
        simp only [Option.map_some'] at h
        have h2 := Option.some.inj h
        have hp1 : p = c :: pr.1 := (congrArg Prod.fst h2).symm
        have hr1 : r = pr.2 := (congrArg Prod.snd h2).symm
        obtain ⟨hl, hnp⟩ := ih (show splitAtMinus rest = some (pr.1, pr.2) by rw [hsp])
        subst hp1; subst hr1
        refine ⟨by simp [hl], ?_⟩
        intro hm
        rcases List.mem_cons.mp hm with h1 | h2m
        · exact hc h1.symm
        · exact hnp h2m

lemma splitAtMinus_length {l p r : List Char} (h : splitAtMinus l = some (p, r)) :
    r.length < l.length := by
  have := (splitAtMinus_eq h).1
  subst this
  simp only [List.length_append, List.length_cons]
  omega

lemma decodeFuel_congr :
    ∀ (f1 f2 : Nat) (l : List Char), l.length ≤ f1 → l.length ≤ f2 →
      decodeFuel f1 l = decodeFuel f2 l := by
  intro f1
  induction f1 with
  | zero =>
    intro f2 l h1 _
    have hl : l = [] := List.eq_nil_of_length_eq_zero (Nat.le_zero.mp h1)
    subst hl
    cases f2 <;> rfl
  | succ g ih =>
    intro f2 l h1 h2
    cases l with
    | nil => cases f2 <;> rfl
    | cons c rest =>
      cases f2 with
      | zero => simp only [List.length_cons] at h2; omega
      | succ g2 =>
        by_cases hc : c = '&'
        · subst hc
          cases hsp : splitAtMinus rest with
          | none => simp only [decodeFuel, if_pos rfl, hsp, if_true]
          | some pr =>
            obtain ⟨payload, rest2⟩ := pr
            have hlen : rest2.length < rest.length := splitAtMinus_length hsp
            have hg : rest2.length ≤ g := by
              simp only [List.length_cons] at h1; omega
            have hg2 : rest2.length ≤ g2 := by
              simp only [List.length_cons] at h2; omega
            simp only [decodeFuel, if_pos rfl, hsp, ih g2 rest2 hg hg2, if_true]
        · have hg : rest.length ≤ g := by
            simp only [List.length_cons] at h1; omega
          have hg2 : rest.length ≤ g2 := by
            simp only [List.length_cons] at h2; omega
          simp only [decodeFuel, if_neg hc, ih g2 rest hg hg2]

lemma decodeFuel_eq_decodeList {f : Nat} {l : List Char} (h : l.length ≤ f) :
    decodeFuel f l = decodeList l :=
  decodeFuel_congr f l.length l h le_rfl

lemma decodeList_cons_of_ne {c : Char} {rest : List Char} (hc : c ≠ '&') :
    decodeList (c :: rest) = (decodeList rest).map (fun d => c :: d) := by
  show decodeFuel (rest.length + 1) (c :: rest) = _
  simp only [decodeFuel, if_neg hc]
  rfl

lemma decodeList_amp_unterminated {rest : List Char} (h : splitAtMinus rest = none) :
    decodeList ('&' :: rest) = some ('&' :: rest) := by
  show decodeFuel (rest.length + 1) ('&' :: rest) = _
  simp [decodeFuel, h]

lemma decodeList_amp_span {payload rest2 : List Char} (hp : '-' ∉ payload) :
    decodeList ('&' :: (payload ++ '-' :: rest2)) =
      match expand ('&' :: payload ++ ['-']) payload with
      | none => none
      | some d => (decodeList rest2).map (fun t => d ++ t) := by
  have hsp := splitAtMinus_append payload rest2 hp
  have hlen : rest2.length ≤ (payload ++ '-' :: rest2).length := by
    simp only [List.length_append, List.length_cons]; omega
  show decodeFuel ((payload ++ '-' :: rest2).length + 1) ('&' :: (payload ++ '-' :: rest2)) = _
  simp only [decodeFuel, if_pos rfl, hsp, decodeFuel_eq_decodeList hlen, if_true]

lemma decodeList_no_amp : ∀ {l : List Char}, '&' ∉ l → decodeList l = some l := by
  intro l
  induction l with
  | nil => intro _; rfl
  | cons c rest ih =>
    intro h
    have hc : c ≠ '&' := fun h' => h (h' ▸ List.mem_cons_self c rest)
    rw [decodeList_cons_of_ne hc, ih (fun hm => h (List.mem_cons_of_mem c hm))]
    rfl

lemma dropWhileEq_of_not_mem {l : List Char} (h : '=' ∉ l) :
    l.dropWhile (fun c => c == '=') = l := by
  cases l with
  | nil => rfl
  | cons c rest =>
    have hc : c ≠ '=' := fun h' => h (h' ▸ List.mem_cons_self c rest)
    rw [List.dropWhile_cons, if_neg (by simp [hc])]

lemma stripEq_of_not_mem {l : List Char} (h : '=' ∉ l) : stripEq l = l := by
  unfold stripEq
  rw [dropWhileEq_of_not_mem (fun hm => h (List.mem_reverse.mp hm)), List.reverse_reverse]

lemma dropWhileEq_replicate_append (k : Nat) (l : List Char) :
    (List.replicate k '=' ++ l).dropWhile (fun c => c == '=') =
      l.dropWhile (fun c => c == '=') := by
  induction k with
  | zero => simp
  | succ n ih => simp [List.replicate_succ, List.dropWhile_cons, ih]

lemma stripEq_append_replicate {l : List Char} (h : '=' ∉ l) (k : Nat) :
    stripEq (l ++ List.replicate k '=') = l := by
  unfold stripEq
  rw [List.reverse_append, List.reverse_replicate, dropWhileEq_replicate_append,
    dropWhileEq_of_not_mem (fun hm => h (List.mem_reverse.mp hm)), List.reverse_reverse]

lemma mem_dropWhileEq_of_mem {c : Char} {l : List Char} (hm : c ∈ l) (hc : c ≠ '=') :
    c ∈ l.dropWhile (fun c => c == '=') := by
  induction l with
  | nil => simp at hm
  | cons x rest ih =>
    rw [List.dropWhile_cons]
    by_cases hx : x = '='
    · rw [if_pos (by simp [hx])]
      rcases List.mem_cons.mp hm with h1 | h2
      · exact absurd (h1.trans hx) hc
      · exact ih h2
    · rw [if_neg (by simp [hx])]
      exact hm

lemma mem_stripEq_of_mem {c : Char} {l : List Char} (hm : c ∈ l) (hc : c ≠ '=') :
    c ∈ stripEq l := by
  unfold stripEq
  rw [List.mem_reverse]
  exact mem_dropWhileEq_of_mem (List.mem_reverse.mpr hm) hc

lemma base64Decode_none_of_badchar {s : List Char} {c : Char} (hm : c ∈ s) (hc : c ≠ '=')
    (hnb : isB64Char c = false) : base64Decode s = none := by
  unfold base64Decode
  by_cases hfirst : s.length - (stripEq s).length > 2
  · simp [hfirst]
  · have hmem : c ∈ stripEq s := mem_stripEq_of_mem hm hc
    have hany : (stripEq s).any (fun c => !isB64Char c) = true :=
      List.any_eq_true.mpr ⟨c, hmem, by simp [hnb]⟩
    simp [hfirst, hany]

lemma base64Decode_none_of_long_pad {l : List Char} (h : '=' ∉ l) {k : Nat} (hk : k > 2) :
    base64Decode (l ++ List.replicate k '=') = none := by
  unfold base64Decode
  have hstrip : stripEq (l ++ List.replicate k '=') = l := stripEq_append_replicate h k
  have hlen : (l ++ List.replicate k '=').length - l.length = k := by
    simp [List.length_append, List.length_replicate]
  simp only [hstrip, hlen]
  rw [if_pos hk]

lemma span_ne_amp_minus {payload : List Char} (hp : payload ≠ []) :
    ('&' :: payload ++ ['-']) ≠ ['&', '-'] := by
  intro h
  have := congrArg List.length h
  simp [List.length_append] at this
  exact hp this

lemma decode_utf7_part_spec {payload : List Char} (hp : payload ≠ []) :
    decode_utf7_part ('&' :: payload ++ ['-']) =
      (base64Decode ((payload.map (fun c => if c = ',' then '/' else c)) ++
        List.replicate ((4 - payload.length % 4) % 4) '=')).map utf16beDecodeBytes := by
  have h1 : (('&' :: payload ++ ['-']).drop 1).dropLast = payload := by
    simp only [List.cons_append, List.drop_succ_cons, List.drop_zero, List.dropLast_concat]
  simp only [decode_utf7_part, if_neg (span_ne_amp_minus hp), h1, List.length_map]

lemma map_comma_ne_eq {payload : List Char} (h : '=' ∉ payload) :
    '=' ∉ payload.map (fun c => if c = ',' then '/' else c) := by
  intro hm
  rcases List.mem_map.mp hm with ⟨c, hc, he⟩
  by_cases hcc : c = ','
  · rw [if_pos hcc] at he; exact absurd he (by decide)
  · rw [if_neg hcc] at he; exact h (he ▸ hc)

lemma decode_utf7_part_none_of_bad {payload : List Char} (hp : payload ≠ [])
    (hbad : (∃ c ∈ payload, isB64Char c = false ∧ c ≠ ',' ∧ c ≠ '=') ∨
      (payload.length % 4 = 1 ∧ '=' ∉ payload)) :
    decode_utf7_part ('&' :: payload ++ ['-']) = none := by
  rw [decode_utf7_part_spec hp]
  rcases hbad with ⟨c, hmem, hnb, hnc, hne⟩ | ⟨hlen, hnomem⟩
  · have hfc : (if c = ',' then '/' else c) = c := if_neg hnc
    have hmem2 : c ∈ (payload.map (fun c => if c = ',' then '/' else c)) ++
        List.replicate ((4 - payload.length % 4) % 4) '=' :=
      List.mem_append_left _ (hfc ▸ List.mem_map_of_mem _ hmem)
    rw [base64Decode_none_of_badchar hmem2 hne hnb]
    rfl
  · rw [hlen]
    have : (4 - 1) % 4 = 3 := by norm_num
    rw [this]
    rw [base64Decode_none_of_long_pad (map_comma_ne_eq hnomem) (by norm_num)]
    rfl

lemma findSpansFuel_shape : ∀ (f : Nat) (l sp : List Char), sp ∈ findSpansFuel f l →
    ∃ mid, sp = '&' :: mid ++ ['-'] ∧ '-' ∉ mid := by
  intro f
  induction f with
  | zero =>
    intro l sp h
    cases l <;> simp [findSpansFuel] at h
  | succ g ih =>
    intro l sp h
    cases l with
    | nil => simp [findSpansFuel] at h
    | cons c rest =>
      rw [findSpansFuel] at h
      by_cases hc : c = '&'
      · rw [if_pos hc] at h
        cases hsp : splitAtMinus rest with
        | none => rw [hsp] at h; simp at h
        | some pr =>
          obtain ⟨payload, rest2⟩ := pr
          rw [hsp] at h
          rcases List.mem_cons.mp h with h1 | h2
          · exact ⟨payload, h1, (splitAtMinus_eq hsp).2⟩
          · exact ih rest2 sp h2
      · rw [if_neg hc] at h
        exact ih rest sp h

lemma char_toNat_lt (c : Char) : c.toNat < 0x110000 := by
  rcases c.valid with h | ⟨_, h2⟩
  · exact Nat.lt_trans h (by norm_num)
  · exact h2

lemma tab_isB64 : ∀ n < 64, isB64Char (tab n) = true := by decide

lemma b64_or_pad_bounds {c : Char} (h : isB64Char c = true ∨ c = '=') :
    0x20 ≤ (if c = '/' then ',' else c).toNat ∧ (if c = '/' then ',' else c).toNat ≤ 0x7F := by
  by_cases hc : c = '/'
  · subst hc; decide
  · rw [if_neg hc]
    rcases h with h | h
    · simp only [isB64Char, decide_eq_true_eq] at h
      rcases h with h | h | h | h | h
      · omega
      · omega
      · omega
      · subst h; decide
      · exact absurd h hc
    · subst h; decide

lemma utf16Encode_lt : ∀ {l : List Char} {u : Nat}, u ∈ utf16Encode l → u < 65536 := by
  intro l
  induction l with
  | nil => intro u h; simp [utf16Encode] at h
  | cons c rest ih =>
    intro u h
    rw [utf16Encode] at h
    have hv := char_toNat_lt c
    by_cases hc : c.toNat < 65536
    · rw [if_pos hc] at h
      rcases List.mem_cons.mp h with h1 | h2
      · omega
      · exact ih h2
    · rw [if_neg hc] at h
      rcases List.mem_cons.mp h with h1 | h2
      · have : (c.toNat - 0x10000) / 0x400 < 0x400 := by omega
        omega
      · rcases List.mem_cons.mp h2 with h3 | h4
        · have : (c.toNat - 0x10000) % 0x400 < 0x400 := Nat.mod_lt _ (by norm_num)
          omega
        · exact ih h4

lemma bytesOfUnitsBE_lt : ∀ {us : List Nat}, (∀ u ∈ us, u < 65536) →
    ∀ b ∈ bytesOfUnitsBE us, b < 256 := by
  intro us
  induction us with
  | nil => intro _ b h; simp [bytesOfUnitsBE] at h
  | cons u rest ih =>
    intro hus b h
    have hu : u < 65536 := hus u (List.mem_cons_self u rest)
    rw [bytesOfUnitsBE] at h
    rcases List.mem_cons.mp h with h1 | h2
    · omega
    · rcases List.mem_cons.mp h2 with h3 | h4
      · have : u % 256 < 256 := Nat.mod_lt _ (by norm_num)
        omega
      · exact ih (fun v hv => hus v (List.mem_cons_of_mem u hv)) b h4

lemma b64Encode_chars : ∀ (bs : List Nat), (∀ b ∈ bs, b < 256) →
    ∀ c ∈ b64Encode bs, isB64Char c = true ∨ c = '='
  | [] => by intro _ c h; simp [b64Encode] at h
  | [b1] => by
    intro hb c h
    have h1 : b1 < 256 := hb b1 (by simp)
    rw [b64Encode] at h
    rcases List.mem_cons.mp h with rfl | h
    · exact Or.inl (tab_isB64 _ (by omega))
    rcases List.mem_cons.mp h with rfl | h
    · exact Or.inl (tab_isB64 _ (by omega))
    rcases List.mem_cons.mp h with rfl | h
    · exact Or.inr rfl
    rcases List.mem_cons.mp h with rfl | h
    · exact Or.inr rfl
    · simp at h
  | [b1, b2] => by
    intro hb c h
    have h1 : b1 < 256 := hb b1 (by simp)
    have h2 : b2 < 256 := hb b2 (by simp)
    rw [b64Encode] at h
    rcases List.mem_cons.mp h with rfl | h
    · exact Or.inl (tab_isB64 _ (by omega))
    rcases List.mem_cons.mp h with rfl | h
    · exact Or.inl (tab_isB64 _ (by omega))
    rcases List.mem_cons.mp h with rfl | h
    · exact Or.inl (tab_isB64 _ (by omega))
    rcases List.mem_cons.mp h with rfl | h
    · exact Or.inr rfl
    · simp at h
  | b1 :: b2 :: b3 :: rest => by
    intro hb c h
    have h1 : b1 < 256 := hb b1 (by simp)
    have h2 : b2 < 256 := hb b2 (by simp)
    have h3 : b3 < 256 := hb b3 (by simp)
    rw [b64Encode] at h
    rcases List.mem_cons.mp h with rfl | h
    · exact Or.inl (tab_isB64 _ (by omega))
    rcases List.mem_cons.mp h with rfl | h
    · exact Or.inl (tab_isB64 _ (by omega))
    rcases List.mem_cons.mp h with rfl | h
    · exact Or.inl (tab_isB64 _ (by omega))
    rcases List.mem_cons.mp h with rfl | h
    · exact Or.inl (tab_isB64 _ (by omega))
    · exact b64Encode_chars rest (fun b hm => hb b (by simp [hm])) c h

lemma mem_of_mem_stripEq {c : Char} {l : List Char} (h : c ∈ stripEq l) : c ∈ l := by
  unfold stripEq at h
  rw [List.mem_reverse] at h
  exact List.mem_reverse.mp ((List.dropWhile_sublist _).subset h)

lemma encode_modified_utf7_chars {na : List Char} :
    ∀ c ∈ encode_modified_utf7 na, 0x20 ≤ c.toNat ∧ c.toNat ≤ 0x7F := by
  intro c h
  simp only [encode_modified_utf7] at h
  rcases List.mem_cons.mp h with rfl | h
  · decide
  rcases List.mem_append.mp h with h | h
  · rcases List.mem_map.mp h with ⟨c0, hc0, rfl⟩
    have hc0' : isB64Char c0 = true ∨ c0 = '=' :=
      b64Encode_chars _ (bytesOfUnitsBE_lt (fun u hu => utf16Encode_lt hu)) c0
        (mem_of_mem_stripEq hc0)
    exact b64_or_pad_bounds hc0'
  · rcases List.mem_singleton.mp h with rfl
    decide

lemma is_ascii_custom_bounds {c : Char} (h : is_ascii_custom c = true) :
    0x20 ≤ c.toNat ∧ c.toNat ≤ 0x7F := by
  simp only [is_ascii_custom, Bool.and_eq_true, decide_eq_true_eq] at h
  exact h

lemma encodeLoopFuel_chars : ∀ (f : Nat) (l : List Char),
    ∀ c ∈ encodeLoopFuel f l, 0x20 ≤ c.toNat ∧ c.toNat ≤ 0x7F := by
  intro f
  induction f with
  | zero =>
    intro l c h
    cases l <;> simp [encodeLoopFuel] at h
  | succ g ih =>
    intro l c h
    cases l with
    | nil => simp [encodeLoopFuel] at h
    | cons x rest =>
      rw [encodeLoopFuel.eq_3 (x :: rest) g (by simp)] at h
      by_cases hr : (remove_ascii (x :: rest)).isEmpty
      · rw [if_pos hr] at h
        exact is_ascii_custom_bounds (List.mem_takeWhile_imp h)
      · rw [if_neg hr] at h
        rcases List.mem_append.mp h with h1 | h2
        · rcases List.mem_append.mp h1 with h1a | h1b
          · exact is_ascii_custom_bounds (List.mem_takeWhile_imp h1a)
          · exact encode_modified_utf7_chars c h1b
        · exact ih _ c h2

lemma replaceAmp_no_amp {l : List Char} (h : '&' ∉ l) : replaceAmp l = l := by
  induction l with
  | nil => rfl
  | cons c rest ih =>
    have hc : c ≠ '&' := fun h' => h (h' ▸ List.mem_cons_self c rest)
    rw [replaceAmp, if_neg hc, ih (fun hm => h (List.mem_cons_of_mem c hm))]

lemma mem_replaceAmp {c : Char} : ∀ {l : List Char}, c ∈ replaceAmp l →
    c = '&' ∨ c = '-' ∨ c ∈ l := by
  intro l
  induction l with
  | nil => intro h; simp [replaceAmp] at h
  | cons x rest ih =>
    intro h
    rw [replaceAmp] at h
    by_cases hx : x = '&'
    · rw [if_pos hx] at h
      rcases List.mem_cons.mp h with rfl | h
      · exact Or.inl rfl
      rcases List.mem_cons.mp h with rfl | h
      · exact Or.inr (Or.inl rfl)
      · rcases ih h with h1 | h1 | h1
        · exact Or.inl h1
        · exact Or.inr (Or.inl h1)
        · exact Or.inr (Or.inr (List.mem_cons_of_mem x h1))
    · rw [if_neg hx] at h
      rcases List.mem_cons.mp h with rfl | h
      · exact Or.inr (Or.inr (List.mem_cons_self c rest))
      · rcases ih h with h1 | h1 | h1
        · exact Or.inl h1
        · exact Or.inr (Or.inl h1)
        · exact Or.inr (Or.inr (List.mem_cons_of_mem x h1))

lemma encodeLoop_all_ascii {l : List Char} (h : ∀ c ∈ l, is_ascii_custom c = true) :
    encodeLoop l = l := by
  cases l with
  | nil => rfl
  | cons x rest =>
    show encodeLoopFuel (rest.length + 1) (x :: rest) = x :: rest
    rw [encodeLoopFuel.eq_3 (x :: rest) rest.length (by simp)]
    have hga : get_ascii (x :: rest) = x :: rest := List.takeWhile_eq_self_iff.mpr h
    have hra : remove_ascii (x :: rest) = [] := List.dropWhile_eq_nil_iff.mpr h
    rw [hra, hga]
    rfl

lemma is_ascii_custom_of_bounds {c : Char} (h1 : 0x20 ≤ c.toNat) (h2 : c.toNat ≤ 0x7F) :
    is_ascii_custom c = true := by
  simp only [is_ascii_custom, Bool.and_eq_true, decide_eq_true_eq]
  exact ⟨h1, h2⟩

/-- Claim C1: the round trip `decode(encode(s)) = s` fails on the code at the
concrete input `"﻿"`: encode produces `"&,v8-"`, whose payload decodes to
the bytes FE FF, which `UTF_16BE.decode` consumes as a byte-order mark, so the
round trip returns `""` and the character U+FEFF is lost. -/
theorem c1_roundtrip_loses_bom :
    encode_utf7_imap "﻿" = "&,v8-" ∧
    decode_utf7_imap (encode_utf7_imap "﻿") = some "" ∧
    "﻿" ≠ "" :=
  ⟨by decide, by decide, by decide⟩

/-- Claim C2 (counterexample): on the malformed input `"&@-"` decode does not
report a MalformedPayload failure to the caller: `base64::decode` fails and
the `.unwrap()` panics (modelled as `none`), so the caller gets no value at
all. -/
theorem c2_counterexample : decode_utf7_imap "&@-" = none := by decide

/-- Claim C2 (amended): for a shift-sequence span whose nonempty payload
contains an invalid base64 character, or has length ≡ 1 mod 4 (hence cannot
be padded to a clean multiple of four), decode panics -- modelled as `none` --
instead of reporting a typed failure; it does not silently substitute
characters. -/
theorem c2_malformed_payload_panics (payload rest : List Char)
    (hp : payload ≠ []) (hm : '-' ∉ payload)
    (hbad : (∃ c ∈ payload, isB64Char c = false ∧ c ≠ ',' ∧ c ≠ '=') ∨
      (payload.length % 4 = 1 ∧ '=' ∉ payload)) :
    decodeList ('&' :: (payload ++ '-' :: rest)) = none := by
  rw [decodeList_amp_span hm]
  have he : expand ('&' :: payload ++ ['-']) payload = none := by
    rw [expand, if_neg (by simp [hp]), decode_utf7_part_none_of_bad hp hbad]
  rw [he]

/-- Claim C2 witness: the amended theorem applied to the concrete payload
`"@"` (the input `"&@-"`). -/
theorem c2_malformed_payload_panics_witness :
    decodeList ('&' :: (['@'] ++ '-' :: [])) = none :=
  c2_malformed_payload_panics ['@'] [] (by decide) (by decide) (by decide)

/-- Claim C3 (counterexample): on `"&AA-"` the decoded byte buffer is the
single byte 0x00 (odd length), yet decode succeeds and silently returns the
replacement character U+FFFD instead of reporting an OddByteBuffer failure. -/
theorem c3_counterexample : decode_utf7_imap "&AA-" = some "�" := by decide

/-- Claim C3 (amended): decode never reports OddByteBuffer or
UnpairedSurrogate; `encoding_rs` silently replaces an unpaired surrogate
(input `"&2AAAQQ-"`, bytes D8 00 00 41) and a trailing odd byte (input
`"&AAAA-"`, bytes 00 00 00) with U+FFFD and decode succeeds. -/
theorem c3_replacement_characters :
    decode_utf7_imap "&2AAAQQ-" = some "�A" ∧
    decode_utf7_imap "&AAAA-" = some "\u0000�" :=
  ⟨by decide, by decide⟩

/-- Claim C4 (counterexample): on `"&AB"` (a `&` with no later `-`) decode
does not fail with UnterminatedShiftSequence: it succeeds and returns the
input unchanged. -/
theorem c4_counterexample : decode_utf7_imap "&AB" = some "&AB" := by decide

/-- Claim C4 (amended): a `&` with no `-` before the end of the input starts
no match; it and all following text pass through verbatim and decode
succeeds. -/
theorem c4_unterminated_passthrough (v : List Char) (h : '-' ∉ v) :
    decodeList ('&' :: v) = some ('&' :: v) :=
  decodeList_amp_unterminated (splitAtMinus_none h)

/-- Claim C4 witness: the amended theorem applied to the input `"&AB"`. -/
theorem c4_unterminated_passthrough_witness :
    decodeList ('&' :: ['A', 'B']) = some ('&' :: ['A', 'B']) :=
  c4_unterminated_passthrough ['A', 'B'] (by decide)

/-- Claim C5 (counterexample): the decode scanner recognizes `"&a&b-"` as a
single shift-sequence span whose interior contains `&`, because the regex
`&([^-]*)-` excludes only `-` (not `&`) from the span interior. -/
theorem c5_counterexample :
    findSpans ("&a&b-".data) = [['&', 'a', '&', 'b', '-']] ∧
    '&' ∈ ((['&', 'a', '&', 'b', '-'] : List Char).drop 1).dropLast :=
  ⟨by decide, by decide⟩

/-- Claim C5 (amended): every span the decode scan recognizes is a `&`
followed by the shortest run of characters containing no `-`, followed by
`-`; the interior may contain `&` (such spans then fail base64 decoding and
panic, rather than being rejected as unmatched text). -/
theorem c5_span_shape (t sp : List Char) (h : sp ∈ findSpans t) :
    ∃ mid, sp = '&' :: mid ++ ['-'] ∧ '-' ∉ mid :=
  findSpansFuel_shape t.length t sp h

/-- Claim C5 witness: the amended theorem applied to the input `"&ab-"` and
its recognized span. -/
theorem c5_span_shape_witness :
    ∃ mid, (['&', 'a', 'b', '-'] : List Char) = '&' :: mid ++ ['-'] ∧ '-' ∉ mid :=
  c5_span_shape ("&ab-".data) ['&', 'a', 'b', '-'] (by decide)

/-- Claim C6 (counterexample): encode's output is not confined to 0x20–0x7E:
the DEL character 0x7F satisfies `is_ascii_custom` (whose range is
`0x20..=0x7f`) and is passed through untransformed. -/
theorem c6_counterexample :
    '\x7F' ∈ (encode_utf7_imap "\x7F").data ∧ ¬('\x7F'.toNat ≤ 0x7E) :=
  ⟨by decide, by decide⟩

/-- Claim C6 (amended): every character of encode's output lies in
0x20–0x7F (printable ASCII plus DEL); equivalently, encode never passes a
character outside `is_ascii_custom`'s range 0x20–0x7F through
untransformed. -/
theorem c6_output_chars (s : String) :
    ∀ c ∈ (encode_utf7_imap s).data, 0x20 ≤ c.toNat ∧ c.toNat ≤ 0x7F := by
  intro c h
  exact encodeLoopFuel_chars _ _ c h

/-- Claim C6 witness: the amended theorem applied to the input `"a"` and the
output character `'a'`. -/
theorem c6_output_chars_witness : 0x20 ≤ 'a'.toNat ∧ 'a'.toNat ≤ 0x7F :=
  c6_output_chars "a" 'a' (by decide)

/-- Claim C7: printable-ASCII characters other than `&` are copied through
encode and decode unchanged; on printable-ASCII input encode is exactly the
`&` → `&-` substitution; decode maps every empty-payload span `&-` back to a
literal `&`; and `encode("a&b") = "a&-b"`, `decode("a&-b") = "a&b"`. -/
theorem c7_printable_passthrough :
    (∀ s : String, (∀ c ∈ s.data, 0x20 ≤ c.toNat ∧ c.toNat ≤ 0x7E) →
      (encode_utf7_imap s).data = replaceAmp s.data) ∧
    (∀ s : String, (∀ c ∈ s.data, (0x20 ≤ c.toNat ∧ c.toNat ≤ 0x7E) ∧ c ≠ '&') →
      encode_utf7_imap s = s ∧ decode_utf7_imap s = some s) ∧
    (∀ rest : List Char,
      decodeList ('&' :: '-' :: rest) = (decodeList rest).map (fun d => '&' :: d)) ∧
    encode_utf7_imap "a&b" = "a&-b" ∧ decode_utf7_imap "a&-b" = some "a&b" := by
  refine ⟨?_, ?_, ?_, by decide, by decide⟩
  · intro s h
    show encodeLoop (replaceAmp s.data) = replaceAmp s.data
    apply encodeLoop_all_ascii
    intro c hc
    rcases mem_replaceAmp hc with rfl | rfl | hmem
    · decide
    · decide
    · exact is_ascii_custom_of_bounds (h c hmem).1 (by have := (h c hmem).2; omega)
  · intro s h
    have hnoamp : '&' ∉ s.data := fun hm => (h _ hm).2 rfl
    have hascii : ∀ c ∈ s.data, is_ascii_custom c = true := fun c hc =>
      is_ascii_custom_of_bounds (h c hc).1.1 (by have := (h c hc).1.2; omega)
    constructor
    · show (⟨encodeLoop (replaceAmp s.data)⟩ : String) = s
      rw [replaceAmp_no_amp hnoamp, encodeLoop_all_ascii hascii]
    · show (decodeList s.data).map (fun l => (⟨l⟩ : String)) = some s
      rw [decodeList_no_amp hnoamp]
      rfl
  · intro rest
    have h := @decodeList_amp_span [] rest (by simp)
    simpa [expand] using h

/-- Claim C7 witness: the theorem applied to the concrete inputs `"a&b"` and
`"ab"`. -/
theorem c7_printable_passthrough_witness :
    (encode_utf7_imap "a&b").data = replaceAmp "a&b".data ∧
    (encode_utf7_imap "ab" = "ab" ∧ decode_utf7_imap "ab" = some "ab") :=
  ⟨c7_printable_passthrough.1 "a&b" (by decide),
   c7_printable_passthrough.2.1 "ab" (by decide)⟩

/-- Claim C8: the concrete reference vector round-trips exactly as stated. -/
theorem c8_reference_vector :
    encode_utf7_imap "Отправленные" = "&BB4EQgQ,BEAEMAQyBDsENQQ9BD0ESwQ1-" ∧
    decode_utf7_imap "&BB4EQgQ,BEAEMAQyBDsENQQ9BD0ESwQ1-" = some "Отправленные" :=
  ⟨by decide, by decide⟩

/-- Claim C9: run segmentation is maximal and per-run: separate non-ASCII
runs each get their own shift sequence, adjacent non-ASCII characters merge
into one. -/
theorem c9_run_segmentation :
    encode_utf7_imap "Šiukšliadėžė" = "&AWA-iuk&AWE-liad&ARcBfgEX-" ∧
    encode_utf7_imap "théâtre" = "th&AOkA4g-tre" :=
  ⟨by decide, by decide⟩

/-- Claim C10: on any input containing no `&`, decode is the identity and
never fails, whatever other characters (including `-` and non-ASCII) the
input contains. -/
theorem c10_decode_identity_no_amp (s : String) (h : '&' ∉ s.data) :
    decode_utf7_imap s = some s := by
  show (decodeList s.data).map (fun l => (⟨l⟩ : String)) = some s
  rw [decodeList_no_amp h]
  rfl

/-- Claim C10 witness: the theorem applied to `"ab-é"` (which contains `-`
and a non-ASCII character but no `&`). -/
theorem c10_decode_identity_no_amp_witness :
    decode_utf7_imap "ab-é" = some "ab-é" :=
  c10_decode_identity_no_amp "ab-é" (by decide)

end Utf7Imap
